import Mathlib

/-!
Verification of the elliptic-curve arithmetic trait layer
(src/elliptic-curve/src/arithmetic.rs).

The Rust source declares three traits: `CurveArithmetic` (binding an affine
point type, a projective point type and a scalar type for one curve, with
associated-type equality constraints), `PrimeCurveArithmetic` (a prime-order
refinement), and `ToAffineBatch` (two entry points for batched
projective-to-affine conversion).  The trait-level type constraints are
embedded as structures with explicit type-equality fields.  The behaviour the
trait bounds merely require of implementors (field inversion of scalars,
projective-to-affine conversion, the Montgomery-trick batch converter, scalar
byte codecs, the is-high predicate, linear combination) is not implemented in
this file of the repository, so those operations are modelled from the spec
and verified against it.
-/

namespace ECTraits

/-- Shallow embedding of the associated types of the Rust trait
`CurveArithmetic` (src/elliptic-curve/src/arithmetic.rs, lines 14-78) together
with the type-equality constraints its bounds impose: the affine point's
coordinate representation (`AffineCoordinates<FieldRepr = FieldBytes<Self>>`,
line 17), the scalar's byte conversion (`Into<FieldBytes<Self>>`, line 68) and
prime-field representation (`ff::PrimeField<Repr = FieldBytes<Self>>`, line
77) are all the curve's `FieldBytes` type, and the projective point's affine
representation (`group::Curve<AffineRepr = Self::AffinePoint>`, line 49) is
the curve's `AffinePoint`. -/
structure CurveArithmetic where
  FieldBytes : Type
  Uint : Type
  AffinePoint : Type
  ProjectivePoint : Type
  Scalar : Type
  affineFieldRepr : Type
  affineFieldRepr_eq : affineFieldRepr = FieldBytes
  scalarBytesRepr : Type
  scalarBytesRepr_eq : scalarBytesRepr = FieldBytes
  scalarPrimeFieldRepr : Type
  scalarPrimeFieldRepr_eq : scalarPrimeFieldRepr = FieldBytes
  projAffineRepr : Type
  projAffineRepr_eq : projAffineRepr = AffinePoint

/-- Shallow embedding of the Rust trait `PrimeCurveArithmetic`
(src/elliptic-curve/src/arithmetic.rs, lines 81-86): it extends
`CurveArithmetic` with an exposed prime-order group type `CurveGroup`, the
supertrait bound `CurveArithmetic<ProjectivePoint = Self::CurveGroup>` forcing
`ProjectivePoint` to be that very type, and the bound
`group::prime::PrimeCurve<Affine = <Self as CurveArithmetic>::AffinePoint>`
forcing the group's affine representation to be the curve's `AffinePoint`. -/
structure PrimeCurveArithmetic extends CurveArithmetic where
  CurveGroup : Type
  projectivePoint_eq_curveGroup : ProjectivePoint = CurveGroup
  curveGroupAffine : Type
  curveGroupAffine_eq : curveGroupAffine = AffinePoint

end ECTraits

namespace ECModel

/-- Modelled from the spec: a projective point in standard projective
coordinates over the curve's base field (the group-law formulas themselves are
external collaborators, out of scope); the identity is any representation with
a zero denominator coordinate `Z`. -/
structure ProjectivePoint (F : Type) where
  X : F
  Y : F
  Z : F
deriving DecidableEq

/-- Modelled from the spec: a point in affine `(x, y)` coordinates or the
distinguished identity value. -/
inductive AffinePoint (F : Type) where
  | identity : AffinePoint F
  | affine (x y : F) : AffinePoint F
deriving DecidableEq

/-- Modelled from the spec: the canonical non-degenerate projective
representation of the identity (zero denominator). -/
def idPoint (F : Type) [Field F] : ProjectivePoint F := ⟨0, 1, 0⟩

/-- Modelled from the spec: single-point conversion to affine form, the
`Into<AffinePoint>` bound of `CurveArithmetic::ProjectivePoint`; produces the
identity's canonical affine form for the identity and otherwise divides both
coordinates by the denominator. -/
def to_affine {F : Type} [Field F] [DecidableEq F] (P : ProjectivePoint F) : AffinePoint F :=
  if P.Z = 0 then AffinePoint.identity else AffinePoint.affine (P.X * P.Z⁻¹) (P.Y * P.Z⁻¹)

/-- Modelled from the spec: projective equivalence, "same affine image" via a
common nonzero scaling of all three coordinates. -/
def ProjEquiv {F : Type} [Field F] (P Q : ProjectivePoint F) : Prop :=
  ∃ l : F, l ≠ 0 ∧ Q.X = l * P.X ∧ Q.Y = l * P.Y ∧ Q.Z = l * P.Z

/-- Modelled from the spec: the per-point denominator fed to the product
chain; an identity point (zero denominator) is excluded by substituting the
neutral multiplicative placeholder 1. -/
def denom {F : Type} [Field F] [DecidableEq F] (P : ProjectivePoint F) : F :=
  if P.Z = 0 then 1 else P.Z

/-- Modelled from the spec: the running product chain of the batch converter,
shifted by one position: entry `i` is `acc * d[0] * ... * d[i-1]`, i.e. the
chain value `c[i-1]` used by the backward pass (with `c[-1] = acc = 1`). -/
def exclProds {F : Type} [Field F] : List F → F → List F
  | [], _ => []
  | d :: ds, acc => acc :: exclProds ds (acc * d)

/-- Modelled from the spec: the backward pass of Montgomery's trick.  The
input pairs `(d[i], c[i-1])` are processed from the last index down; each step
recovers `d[i]⁻¹ = c[i-1] * aggregate_inverse` and then updates
`aggregate_inverse := aggregate_inverse * d[i]`. -/
def recoverInvs {F : Type} [Field F] : List (F × F) → F → List F
  | [], _ => []
  | dc :: rest, aggInv => (dc.2 * aggInv) :: recoverInvs rest (aggInv * dc.1)

/-- Modelled from the spec: simultaneous inversion (Montgomery's trick): build
the product chain, invert only the final aggregate product, then walk the
chain backward recovering each individual inverse. -/
def batchInv {F : Type} [Field F] (ds : List F) : List F :=
  (recoverInvs ((ds.zip (exclProds ds 1)).reverse) (ds.prod)⁻¹).reverse

/-- Modelled from the spec: apply a recovered denominator inverse to a point's
other coordinates to finish its affine conversion; a point equal to the
identity has its result forced to the identity's canonical affine value
directly. -/
def finishPoint {F : Type} [Field F] [DecidableEq F]
    (P : ProjectivePoint F) (zinv : F) : AffinePoint F :=
  if P.Z = 0 then AffinePoint.identity else AffinePoint.affine (P.X * zinv) (P.Y * zinv)

/-- Modelled from the spec: the dynamically-sized entry point
`ToAffineBatch::to_affine_batch_slice` (declared without a body in
src/elliptic-curve/src/arithmetic.rs, lines 101-103): batch conversion of a
runtime-determined sequence of projective points using one aggregated
inversion. -/
def to_affine_batch_slice {F : Type} [Field F] [DecidableEq F]
    (Ps : List (ProjectivePoint F)) : List (AffinePoint F) :=
  (Ps.zip (batchInv (Ps.map denom))).map (fun Pz => finishPoint Pz.1 Pz.2)

/-- Modelled from the spec: the fixed-size entry point
`ToAffineBatch::to_affine_batch_array` (declared without a body in
src/elliptic-curve/src/arithmetic.rs, lines 94-96): the same aggregated
conversion on a compile-time-fixed count of points, returning a same-sized
fixed sequence. -/
def to_affine_batch_array {F : Type} [Field F] [DecidableEq F] {N : ℕ}
    (Ps : Fin N → ProjectivePoint F) : Fin N → AffinePoint F :=
  fun i => (to_affine_batch_slice (List.ofFn Ps)).getD i AffinePoint.identity

/-- Modelled from the spec: scalar inversion, the
`Invert<Output = CtOption<Self::Scalar>>` bound of `CurveArithmetic::Scalar`
(src/elliptic-curve/src/arithmetic.rs, line 71, declared without a body): the
multiplicative inverse wrapped in an optional-success "maybe absent" container
(`CtOption` modelled as `Option`), absent for the zero scalar. -/
def invert {F : Type} [Field F] [DecidableEq F] (s : F) : Option F :=
  if s = 0 then none else some s⁻¹

/-- Modelled from the spec: the `IsHigh` bound of `CurveArithmetic::Scalar`
(src/elliptic-curve/src/arithmetic.rs, line 72, declared without a body):
whether the scalar's canonical integer value exceeds half the curve order. -/
def is_high (q : ℕ) (s : ZMod q) : Bool := decide (q / 2 < s.val)

/-- Modelled from the spec: fixed-width big-endian base-256 digits of a
natural number (most significant byte first). -/
def natToBEBytes : ℕ → ℕ → List ℕ
  | 0, _ => []
  | w + 1, n => natToBEBytes w (n / 256) ++ [n % 256]

/-- Modelled from the spec: the numeric value of a big-endian byte string. -/
def beBytesToNat (bs : List ℕ) : ℕ := bs.foldl (fun acc b => acc * 256 + b) 0

/-- Modelled from the spec: the canonical fixed-width scalar encoding, the
`Into<FieldBytes<Self>>` bound of `CurveArithmetic::Scalar`
(src/elliptic-curve/src/arithmetic.rs, line 68, declared without a body). -/
def to_bytes (q w : ℕ) (s : ZMod q) : List ℕ := natToBEBytes w s.val

/-- Modelled from the spec: canonical scalar decoding
(`ff::PrimeField<Repr = FieldBytes<Self>>`, src/elliptic-curve/src/arithmetic.rs,
line 77, declared without a body): an out-of-range byte string fails with an
"invalid scalar" condition rather than silently reducing. -/
def from_bytes (q w : ℕ) (bs : List ℕ) : Option (ZMod q) :=
  if bs.length = w ∧ (∀ b ∈ bs, b < 256) ∧ beBytesToNat bs < q then
    some ((beBytesToNat bs : ℕ) : ZMod q)
  else none

/-- Modelled from the spec: the canonical fixed-size affine point encoding (a
tag byte distinguishing the identity, then both fixed-width coordinates). -/
def encode_affine (p w : ℕ) : AffinePoint (ZMod p) → List ℕ
  | AffinePoint.identity => 0 :: List.replicate (2 * w) 0
  | AffinePoint.affine x y => 1 :: (natToBEBytes w x.val ++ natToBEBytes w y.val)

/-- Modelled from the spec: decoding of the canonical affine point encoding;
malformed input is an explicit failure result. -/
def decode_affine (p w : ℕ) (bs : List ℕ) : Option (AffinePoint (ZMod p)) :=
  if bs = 0 :: List.replicate (2 * w) 0 then some AffinePoint.identity
  else if bs.length = 2 * w + 1 ∧ bs.headI = 1 then
    (from_bytes p w (bs.tail.take w)).bind (fun x =>
      (from_bytes p w (bs.tail.drop w)).map (fun y => AffinePoint.affine x y))
  else none

/-- Modelled from the spec: one level of the Shamir/Straus simultaneous
ladder: double the accumulator, then add every point whose scalar has bit `b`
set. -/
def ladderStep {G : Type} [AddCommMonoid G] (b : ℕ) (pairs : List (ℕ × G)) (acc : G) : G :=
  pairs.foldl (fun a sp => if sp.1 / 2 ^ b % 2 = 1 then a + sp.2 else a) (acc + acc)

/-- Modelled from the spec: the simultaneous ladder processing bit positions
from the most significant down to bit 0. -/
def ladder {G : Type} [AddCommMonoid G] : ℕ → List (ℕ × G) → G → G
  | 0, _, acc => acc
  | b + 1, pairs, acc => ladder b pairs (ladderStep b pairs acc)

/-- Modelled from the spec: scalar multiplication of a group element by a
scalar's canonical integer value. -/
def scalar_mul (q : ℕ) {G : Type} [AddCommMonoid G] (s : ZMod q) (P : G) : G :=
  s.val • P

/-- Modelled from the spec: the `LinearCombination` bound of
`CurveArithmetic::ProjectivePoint` (src/elliptic-curve/src/arithmetic.rs, line
47, declared without a body): the sum of scalar-times-point over a list of
pairs, computed in a single pass by a Shamir/Straus-style simultaneous ladder;
`q` bit positions always suffice because every scalar value is reduced below
`q < 2 ^ q`. -/
def linear_combination (q : ℕ) {G : Type} [AddCommMonoid G]
    (pairs : List (ZMod q × G)) : G :=
  ladder q (pairs.map (fun sp => (sp.1.val, sp.2))) 0

/-- A small prime used to instantiate the generic statements on concrete
inputs. -/
instance : Fact (Nat.Prime 13) := ⟨by norm_num⟩

end ECModel

namespace ECModel

theorem exclProds_length {F : Type} [Field F] (ds : List F) (acc : F) :
    (exclProds ds acc).length = ds.length := by
  induction ds generalizing acc with
  | nil => rfl
  | cons d ds ih => simp [exclProds, ih]

theorem exclProds_append {F : Type} [Field F] (ds es : List F) (acc : F) :
    exclProds (ds ++ es) acc = exclProds ds acc ++ exclProds es (acc * ds.prod) := by
  induction ds generalizing acc with
  | nil => simp [exclProds]
  | cons d ds ih =>
      simp [exclProds, ih (acc * d), List.prod_cons, mul_assoc]

theorem recoverInvs_spec {F : Type} [Field F] (ds : List F) (h : ∀ d ∈ ds, d ≠ 0) :
    recoverInvs ((ds.zip (exclProds ds 1)).reverse) (ds.prod)⁻¹ = (ds.map (·⁻¹)).reverse := by
  induction ds using List.reverseRecOn with
  | nil => rfl
  | append_singleton ds d ih =>
      have hd : d ≠ 0 := h d (by simp)
      have hds : ∀ x ∈ ds, x ≠ 0 := fun x hx => h x (by simp [hx])
      have hprod : ds.prod ≠ 0 :=
        List.prod_ne_zero (fun h0 => (hds 0 h0) rfl)
      have hzip : (ds ++ [d]).zip (exclProds (ds ++ [d]) 1)
          = ds.zip (exclProds ds 1) ++ [(d, 1 * ds.prod)] := by
        rw [exclProds_append, List.zip_append (by rw [exclProds_length])]
        simp [exclProds]
      rw [hzip, List.reverse_append]
      simp only [List.reverse_singleton, List.singleton_append, List.prod_append,
        List.prod_singleton, recoverInvs, List.append_eq, List.nil_append]
      have hinv : (ds.prod * d)⁻¹ = ds.prod⁻¹ * d⁻¹ := mul_inv ds.prod d
      have h1 : 1 * ds.prod * (ds.prod * d)⁻¹ = d⁻¹ := by
        rw [one_mul, hinv, ← mul_assoc, mul_inv_cancel₀ hprod, one_mul]
      have h2 : (ds.prod * d)⁻¹ * d = ds.prod⁻¹ := by
        rw [hinv, mul_assoc, inv_mul_cancel₀ hd, mul_one]
      rw [h1, h2, ih hds]
      simp

theorem batchInv_spec {F : Type} [Field F] (ds : List F) (h : ∀ d ∈ ds, d ≠ 0) :
    batchInv ds = ds.map (·⁻¹) := by
  unfold batchInv
  rw [recoverInvs_spec ds h, List.reverse_reverse]

theorem denom_ne_zero {F : Type} [Field F] [DecidableEq F] (P : ProjectivePoint F) :
    denom P ≠ 0 := by
  unfold denom
  split
  · exact one_ne_zero
  · assumption

theorem finishPoint_denom_inv {F : Type} [Field F] [DecidableEq F] (P : ProjectivePoint F) :
    finishPoint P (denom P)⁻¹ = to_affine P := by
  unfold finishPoint denom to_affine
  by_cases h : P.Z = 0 <;> simp [h]

theorem zip_map_self {α β γ : Type} (g : α → β) (f : α → β → γ) (l : List α) :
    (l.zip (l.map g)).map (fun ab => f ab.1 ab.2) = l.map (fun a => f a (g a)) := by
  induction l with
  | nil => rfl
  | cons a l ih => simp [ih]

theorem to_affine_batch_slice_eq_map {F : Type} [Field F] [DecidableEq F]
    (Ps : List (ProjectivePoint F)) :
    to_affine_batch_slice Ps = Ps.map to_affine := by
  unfold to_affine_batch_slice
  rw [batchInv_spec (Ps.map denom) (by
    intro d hd
    obtain ⟨P, _, rfl⟩ := List.mem_map.mp hd
    exact denom_ne_zero P)]
  rw [List.map_map, zip_map_self ((fun x => x⁻¹) ∘ denom) finishPoint Ps]
  exact List.map_congr_left (fun P _ => finishPoint_denom_inv P)

theorem to_affine_idPoint (F : Type) [Field F] [DecidableEq F] :
    to_affine (idPoint F) = AffinePoint.identity := by
  simp [to_affine, idPoint]

theorem to_affine_batch_slice_getD {F : Type} [Field F] [DecidableEq F]
    (Ps : List (ProjectivePoint F)) (i : Fin Ps.length) :
    (to_affine_batch_slice Ps).getD i AffinePoint.identity = to_affine (Ps.get i) := by
  rw [to_affine_batch_slice_eq_map,
    List.getD_eq_getElem _ _ (by simp)]
  simp [List.getElem_map, List.get_eq_getElem]

theorem slice_ofFn_getD {F : Type} [Field F] [DecidableEq F] {N : ℕ}
    (Qs : Fin N → ProjectivePoint F) (i : Fin N) :
    (to_affine_batch_slice (List.ofFn Qs)).getD i AffinePoint.identity = to_affine (Qs i) := by
  rw [to_affine_batch_slice_eq_map, List.map_ofFn,
    List.getD_eq_getElem _ _ (by simp)]
  simp [List.getElem_ofFn]

theorem to_affine_batch_array_eq {F : Type} [Field F] [DecidableEq F] {N : ℕ}
    (Qs : Fin N → ProjectivePoint F) (i : Fin N) :
    to_affine_batch_array Qs i = to_affine (Qs i) :=
  slice_ofFn_getD Qs i

/-- C1: for every size N and every input sequence of projective points, both
entry points of the batch affine conversion return, at every index i, exactly
the single-point affine conversion of the i-th input; a position holding the
identity yields the identity's canonical affine value and the other positions
are unaffected, and an all-identity input of size N returns N canonical
identity affine points. -/
theorem batch_affine_correct (F : Type) [Field F] [DecidableEq F] :
    (∀ Ps : List (ProjectivePoint F), (to_affine_batch_slice Ps).length = Ps.length)
  ∧ (∀ (Ps : List (ProjectivePoint F)) (i : Fin Ps.length),
      (to_affine_batch_slice Ps).getD i AffinePoint.identity = to_affine (Ps.get i))
  ∧ (∀ (N : ℕ) (Qs : Fin N → ProjectivePoint F) (i : Fin N),
      to_affine_batch_array Qs i = to_affine (Qs i))
  ∧ (∀ N : ℕ, to_affine_batch_slice (List.replicate N (idPoint F))
      = List.replicate N AffinePoint.identity) := by
  refine ⟨?_, fun Ps i => to_affine_batch_slice_getD Ps i,
    fun N Qs i => to_affine_batch_array_eq Qs i, ?_⟩
  · intro Ps
    rw [to_affine_batch_slice_eq_map, List.length_map]
  · intro N
    rw [to_affine_batch_slice_eq_map, List.map_replicate, to_affine_idPoint]

/-- Witness for C1 at a concrete input: an all-identity batch of size 3 over
the field with 13 elements converts to 3 identity affine points. -/
theorem batch_affine_correct_witness :
    to_affine_batch_slice (List.replicate 3 (idPoint (ZMod 13)))
      = List.replicate 3 AffinePoint.identity :=
  (batch_affine_correct (ZMod 13)).2.2.2 3

/-- C2: the fixed-size-array entry point and the dynamically-sized entry point
produce identical affine results for the same input ordering, and in both the
output ordering matches the input ordering exactly: index i of the output
corresponds to index i of the input. -/
theorem batch_entry_points_agree (F : Type) [Field F] [DecidableEq F] {N : ℕ}
    (Ps : Fin N → ProjectivePoint F) :
    (∀ i : Fin N, to_affine_batch_array Ps i
        = (to_affine_batch_slice (List.ofFn Ps)).getD i AffinePoint.identity)
  ∧ (∀ i : Fin N, to_affine_batch_array Ps i = to_affine (Ps i))
  ∧ (∀ i : Fin N,
      (to_affine_batch_slice (List.ofFn Ps)).getD i AffinePoint.identity = to_affine (Ps i)) :=
  ⟨fun _ => rfl, fun i => to_affine_batch_array_eq Ps i, fun i => slice_ofFn_getD Ps i⟩

/-- Witness for C2 at a concrete input of size 2 over the field with 13
elements. -/
theorem batch_entry_points_agree_witness :
    to_affine_batch_array (fun _ : Fin 2 => idPoint (ZMod 13)) ⟨0, by norm_num⟩
      = to_affine (idPoint (ZMod 13)) :=
  (batch_entry_points_agree (ZMod 13) (fun _ : Fin 2 => idPoint (ZMod 13))).2.1 ⟨0, by norm_num⟩

theorem scale_cancel {F : Type} [Field F] (l a z : F) (hl : l ≠ 0) :
    l * a * (l * z)⁻¹ = a * z⁻¹ := by
  rw [mul_inv]
  have h : l * a * (l⁻¹ * z⁻¹) = l * l⁻¹ * (a * z⁻¹) := by ring
  rw [h, mul_inv_cancel₀ hl, one_mul]

/-- C4: conversion of a projective point to affine form is total and produces
the unique affine representative of the point's equivalence class (so two
projective points with the same affine image convert to equal affine points),
with the identity's canonical affine form for the identity. -/
theorem to_affine_wellDefined {F : Type} [Field F] [DecidableEq F]
    (P Q : ProjectivePoint F) (h : ProjEquiv P Q) :
    to_affine Q = to_affine P ∧ (P.Z = 0 → to_affine P = AffinePoint.identity) := by
  obtain ⟨l, hl, hx, hy, hz⟩ := h
  refine ⟨?_, fun hPZ => by unfold to_affine; rw [if_pos hPZ]⟩
  by_cases hPZ : P.Z = 0
  · unfold to_affine
    rw [if_pos hPZ, if_pos (by rw [hz, hPZ, mul_zero])]
  · have hQZ : Q.Z ≠ 0 := by
      rw [hz]
      exact mul_ne_zero hl hPZ
    unfold to_affine
    rw [if_neg hQZ, if_neg hPZ, hx, hy, hz,
      scale_cancel l P.X P.Z hl, scale_cancel l P.Y P.Z hl]

/-- Witness for C4: over the field with 13 elements, the projective points
(1, 2, 1) and (2, 4, 2) lie in the same equivalence class (scaling 2) and
convert to the same affine point. -/
theorem to_affine_wellDefined_witness :
    to_affine (ProjectivePoint.mk (2 : ZMod 13) 4 2)
        = to_affine (ProjectivePoint.mk (1 : ZMod 13) 2 1)
      ∧ ((ProjectivePoint.mk (1 : ZMod 13) 2 1).Z = 0 →
          to_affine (ProjectivePoint.mk (1 : ZMod 13) 2 1) = AffinePoint.identity) :=
  to_affine_wellDefined (ProjectivePoint.mk 1 2 1) (ProjectivePoint.mk 2 4 2)
    ⟨2, by decide, by decide, by decide, by decide⟩

/-- C3: scalar inversion returns a "maybe absent" optional container rather
than throwing: it is absent exactly when the scalar is zero, and when present
the value is a genuine multiplicative inverse. -/
theorem invert_spec {F : Type} [Field F] [DecidableEq F] (s : F) :
    (invert s = none ↔ s = 0) ∧ ∀ v : F, invert s = some v → s * v = 1 := by
  unfold invert
  by_cases h : s = 0
  · simp [h]
  · simp only [if_neg h]
    refine ⟨by simp [h], ?_⟩
    intro v hv
    rw [← Option.some.inj hv, mul_inv_cancel₀ h]

/-- Witness for C3 at the concrete scalar 5 over the field with 13 elements:
its inverse is present and multiplies with 5 to give 1. -/
theorem invert_spec_witness :
    invert (5 : ZMod 13) ≠ none ∧ (5 : ZMod 13) * 8 = 1 := by
  have h := invert_spec (5 : ZMod 13)
  refine ⟨fun hn => absurd (h.1.mp hn) (by decide), h.2 8 ?_⟩
  unfold invert
  rw [if_neg (by decide : ¬ (5 : ZMod 13) = 0)]
  exact congrArg some (inv_eq_of_mul_eq_one_right (by decide))

end ECModel

namespace ECTraits

/-- C8: for every curve satisfying the Curve Arithmetic Contract, the
byte-representation type used for scalar encodings and the byte-representation
type used for the affine point's coordinate accessors are the identical type
(the curve's field byte width), so every cross-conversion between scalar bytes
and coordinate bytes is well-typed. -/
theorem scalar_affine_repr_identical (C : CurveArithmetic) :
    C.scalarPrimeFieldRepr = C.affineFieldRepr ∧ C.scalarBytesRepr = C.affineFieldRepr := by
  rw [C.scalarPrimeFieldRepr_eq, C.scalarBytesRepr_eq, C.affineFieldRepr_eq]
  exact ⟨rfl, rfl⟩

/-- C10: for every curve satisfying the Prime-Order Refinement, the exposed
prime-order group type is the very same type as the curve's projective point
type, and that group's affine representation is the curve's affine point type:
the refinement adds no second group representation. -/
theorem prime_refinement_no_second_group (C : PrimeCurveArithmetic) :
    C.CurveGroup = C.ProjectivePoint ∧ C.curveGroupAffine = C.AffinePoint :=
  ⟨C.projectivePoint_eq_curveGroup.symm, C.curveGroupAffine_eq⟩

end ECTraits

namespace ECModel

theorem natToBEBytes_length (w n : ℕ) : (natToBEBytes w n).length = w := by
  induction w generalizing n with
  | zero => rfl
  | succ w ih => simp [natToBEBytes, ih]

theorem natToBEBytes_lt (w n : ℕ) : ∀ b ∈ natToBEBytes w n, b < 256 := by
  induction w generalizing n with
  | zero => intro b hb; cases hb
  | succ w ih =>
      intro b hb
      rcases List.mem_append.mp hb with h | h
      · exact ih (n / 256) b h
      · rw [List.mem_singleton.mp h]
        exact Nat.mod_lt _ (by norm_num)

theorem mod_mul_decomp (c B n : ℕ) (hc : 0 < c) (hB : 0 < B) :
    n % (c * B) = c * (n / c % B) + n % c := by
  have key : n = c * B * (n / c / B) + (c * (n / c % B) + n % c) := by
    calc n = c * (n / c) + n % c := (Nat.div_add_mod n c).symm
      _ = c * (B * (n / c / B) + n / c % B) + n % c := by rw [Nat.div_add_mod (n / c) B]
      _ = c * B * (n / c / B) + (c * (n / c % B) + n % c) := by ring
  have h1 : n / c % B < B := Nat.mod_lt _ hB
  have h2 : n % c < c := Nat.mod_lt _ hc
  have h3 : c * (n / c % B) + c ≤ c * B := by
    calc c * (n / c % B) + c = c * (n / c % B + 1) := by ring
      _ ≤ c * B := mul_le_mul_left' (Nat.succ_le_of_lt h1) c
  calc n % (c * B) = (c * B * (n / c / B) + (c * (n / c % B) + n % c)) % (c * B) := by
        rw [← key]
    _ = (c * (n / c % B) + n % c) % (c * B) := by rw [Nat.mul_add_mod]
    _ = c * (n / c % B) + n % c := Nat.mod_eq_of_lt (by omega)

theorem beBytesToNat_append (bs : List ℕ) (b : ℕ) :
    beBytesToNat (bs ++ [b]) = beBytesToNat bs * 256 + b := by
  unfold beBytesToNat
  rw [List.foldl_append]
  rfl

theorem beBytesToNat_natToBEBytes (w n : ℕ) :
    beBytesToNat (natToBEBytes w n) = n % 256 ^ w := by
  induction w generalizing n with
  | zero => simp [natToBEBytes, beBytesToNat, Nat.mod_one]
  | succ w ih =>
      rw [natToBEBytes, beBytesToNat_append, ih]
      have h := mod_mul_decomp 256 (256 ^ w) n (by norm_num) (pow_pos (by norm_num) w)
      have hpow : (256 : ℕ) ^ (w + 1) = 256 * 256 ^ w := by rw [pow_succ, mul_comm]
      rw [hpow, h]
      omega

theorem from_bytes_to_bytes (q w : ℕ) (hq : 0 < q) (hqw : q ≤ 256 ^ w) (s : ZMod q) :
    from_bytes q w (to_bytes q w s) = some s := by
  haveI : NeZero q := ⟨hq.ne'⟩
  have hval : s.val < q := ZMod.val_lt s
  have hb : beBytesToNat (natToBEBytes w s.val) = s.val := by
    rw [beBytesToNat_natToBEBytes, Nat.mod_eq_of_lt (lt_of_lt_of_le hval hqw)]
  unfold from_bytes to_bytes
  rw [if_pos ⟨natToBEBytes_length w s.val, natToBEBytes_lt w s.val, by rw [hb]; exact hval⟩, hb]
  exact congrArg some (ZMod.natCast_rightInverse s)

theorem decode_encode_affine (p w : ℕ) (hp : 0 < p) (hpw : p ≤ 256 ^ w)
    (A : AffinePoint (ZMod p)) :
    decode_affine p w (encode_affine p w A) = some A := by
  cases A with
  | identity => simp [encode_affine, decode_affine]
  | affine x y =>
      have hx := from_bytes_to_bytes p w hp hpw x
      have hy := from_bytes_to_bytes p w hp hpw y
      unfold to_bytes at hx hy
      unfold encode_affine decode_affine
      have h1 : (1 :: (natToBEBytes w x.val ++ natToBEBytes w y.val))
          ≠ 0 :: List.replicate (2 * w) 0 := by simp
      have h2 : (1 :: (natToBEBytes w x.val ++ natToBEBytes w y.val)).length = 2 * w + 1 ∧
          (1 :: (natToBEBytes w x.val ++ natToBEBytes w y.val)).headI = 1 := by
        refine ⟨?_, rfl⟩
        simp only [List.length_cons, List.length_append, natToBEBytes_length]
        omega
      rw [if_neg h1, if_pos h2, List.tail_cons,
        List.take_left' (natToBEBytes_length w x.val),
        List.drop_left' (natToBEBytes_length w x.val), hx, hy]
      rfl

/-- C5: decoding the canonical fixed-width byte encoding of a valid scalar
yields the scalar again, and the same round-trip holds for every valid affine
point, whenever the modulus fits the declared byte width. -/
theorem round_trip (q p w : ℕ) (hq : 0 < q) (hqw : q ≤ 256 ^ w)
    (hp : 0 < p) (hpw : p ≤ 256 ^ w) :
    (∀ s : ZMod q, from_bytes q w (to_bytes q w s) = some s)
  ∧ (∀ A : AffinePoint (ZMod p), decode_affine p w (encode_affine p w A) = some A) :=
  ⟨fun s => from_bytes_to_bytes q w hq hqw s, fun A => decode_encode_affine p w hp hpw A⟩

/-- Witness for C5 at modulus 13 and byte width 1: the scalar 5 and the affine
point (2, 3) round-trip through their codecs. -/
theorem round_trip_witness :
    from_bytes 13 1 (to_bytes 13 1 (5 : ZMod 13)) = some 5
  ∧ decode_affine 13 1 (encode_affine 13 1 (AffinePoint.affine (2 : ZMod 13) 3))
      = some (AffinePoint.affine 2 3) :=
  ⟨(round_trip 13 13 1 (by norm_num) (by norm_num) (by norm_num) (by norm_num)).1 5,
   (round_trip 13 13 1 (by norm_num) (by norm_num) (by norm_num) (by norm_num)).2
     (AffinePoint.affine 2 3)⟩

/-- C6: for every nonzero scalar over an odd modulus, exactly one of the
scalar and its additive negation reports is_high, i.e. has canonical value
exceeding half the curve order. -/
theorem is_high_negation (q : ℕ) (hq : Odd q) (s : ZMod q) (hs : s ≠ 0) :
    is_high q s ≠ is_high q (-s) := by
  haveI : NeZero q := ⟨by
    intro h0
    rw [h0] at hq
    exact absurd (Nat.odd_iff.mp hq) (by decide)⟩
  have hv : s.val < q := ZMod.val_lt s
  have hv0 : s.val ≠ 0 := fun h0 => hs ((ZMod.val_eq_zero s).mp h0)
  have hneg : (-s).val = q - s.val := by rw [ZMod.neg_val, if_neg hs]
  obtain ⟨k, hk⟩ := hq
  unfold is_high
  rw [hneg]
  intro hEq
  rw [decide_eq_decide] at hEq
  omega

/-- Witness for C6 at modulus 13 and the scalar 7: 7 is high (7 > 6) and its
negation 6 is not. -/
theorem is_high_negation_witness :
    is_high 13 (7 : ZMod 13) = true ∧ is_high 13 (7 : ZMod 13) ≠ is_high 13 (-(7 : ZMod 13)) :=
  ⟨by decide, is_high_negation 13 ⟨6, by norm_num⟩ 7 (by decide)⟩

theorem foldl_cond_add {G : Type} [AddCommMonoid G] (b : ℕ) (pairs : List (ℕ × G)) (a0 : G) :
    pairs.foldl (fun a sp => if sp.1 / 2 ^ b % 2 = 1 then a + sp.2 else a) a0
      = a0 + (pairs.map (fun sp => if sp.1 / 2 ^ b % 2 = 1 then sp.2 else 0)).sum := by
  induction pairs generalizing a0 with
  | nil => simp
  | cons sp rest ih =>
      simp only [List.foldl_cons, List.map_cons, List.sum_cons]
      by_cases hbit : sp.1 / 2 ^ b % 2 = 1
      · rw [if_pos hbit, if_pos hbit, ih, add_assoc]
      · rw [if_neg hbit, if_neg hbit, ih, zero_add]

theorem sum_map_addf {α G : Type} [AddCommMonoid G] (l : List α) (f g : α → G) :
    (l.map (fun x => f x + g x)).sum = (l.map f).sum + (l.map g).sum := by
  induction l with
  | nil => simp
  | cons a l ih =>
      simp only [List.map_cons, List.sum_cons, ih]
      rw [add_add_add_comm]

theorem ladder_spec {G : Type} [AddCommMonoid G] (b : ℕ) (pairs : List (ℕ × G)) (acc : G) :
    ladder b pairs acc
      = 2 ^ b • acc + (pairs.map (fun sp => (sp.1 % 2 ^ b) • sp.2)).sum := by
  induction b generalizing acc with
  | zero =>
      simp only [ladder, pow_zero, one_smul, Nat.mod_one]
      have h : (pairs.map (fun sp : ℕ × G => (0 : ℕ) • sp.2)).sum = 0 := by
        simp
      rw [h, add_zero]
  | succ b ih =>
      rw [ladder, ih (ladderStep b pairs acc)]
      unfold ladderStep
      rw [foldl_cond_add, smul_add]
      have hacc : (2 ^ b : ℕ) • (acc + acc) = (2 ^ (b + 1) : ℕ) • acc := by
        rw [← two_smul ℕ acc, ← mul_smul, ← pow_succ]
      rw [hacc, add_assoc]
      congr 1
      rw [List.smul_sum, List.map_map, ← sum_map_addf]
      apply congrArg List.sum
      apply List.map_congr_left
      intro sp _
      show (2 ^ b : ℕ) • (if sp.1 / 2 ^ b % 2 = 1 then sp.2 else 0) + (sp.1 % 2 ^ b) • sp.2
        = (sp.1 % 2 ^ (b + 1)) • sp.2
      have hkey : sp.1 % 2 ^ (b + 1) = 2 ^ b * (sp.1 / 2 ^ b % 2) + sp.1 % 2 ^ b := by
        rw [pow_succ]
        exact mod_mul_decomp (2 ^ b) 2 sp.1 (pow_pos (by norm_num) b) (by norm_num)
      rw [hkey, add_smul, mul_smul]
      by_cases hbit : sp.1 / 2 ^ b % 2 = 1
      · rw [if_pos hbit, hbit, one_smul]
      · have h0 : sp.1 / 2 ^ b % 2 = 0 := by omega
        rw [if_neg hbit, h0, zero_smul, smul_zero]

/-- C7: over any positive modulus, linear_combination of a list of
(scalar, point) pairs, computed by the simultaneous ladder, equals the group
sum of the independently computed scalar multiplications. -/
theorem linear_combination_spec (q : ℕ) (hq : 0 < q) {G : Type} [AddCommMonoid G]
    (pairs : List (ZMod q × G)) :
    linear_combination q pairs = (pairs.map (fun sp => scalar_mul q sp.1 sp.2)).sum := by
  haveI : NeZero q := ⟨hq.ne'⟩
  unfold linear_combination
  rw [ladder_spec, smul_zero, zero_add, List.map_map]
  apply congrArg List.sum
  apply List.map_congr_left
  intro sp _
  show (sp.1.val % 2 ^ q) • sp.2 = scalar_mul q sp.1 sp.2
  unfold scalar_mul
  rw [Nat.mod_eq_of_lt (lt_trans (ZMod.val_lt sp.1) (Nat.lt_two_pow q))]

/-- Witness for C7: over scalar modulus 7 acting on the additive group of
integers modulo 13, the pairs (3, 2) and (5, 4) combine to
3 * 2 + 5 * 4 = 26 = 0. -/
theorem linear_combination_spec_witness :
    linear_combination 7 [((3 : ZMod 7), (2 : ZMod 13)), ((5 : ZMod 7), (4 : ZMod 13))] = 0 := by
  rw [linear_combination_spec 7 (by norm_num)]
  decide

end ECModel
